import Mathlib

/-!
Verification of the console subsystem of mysql-utilities
(`mysql_utilities/common/console.py` and
`mysql_utilities/command/failover_console.py`).

Python strings are modelled as `List Char`; stateful classes become
structures with pure state-transition functions.  Terminal output
(`sys.stdout.write`, `print`) is elided except where a claim is about
what gets printed, in which case it is returned as an explicit value.
-/

set_option autoImplicit false

/-- Convert a Lean string literal to the `List Char` representation used
throughout this development. -/
def str (s : String) : List Char := s.data

/-- Python `s.find(c, start)`: index of the first occurrence of `c` in `s`
at an index `≥ start`, or `none` (Python `-1`) if there is no such
occurrence. -/
def pyFind (c : Char) : List Char → ℕ → Option ℕ
  | [], _ => none
  | x :: xs, 0 => if x = c then some 0 else (pyFind c xs 0).map (· + 1)
  | _ :: xs, k + 1 => (pyFind c xs k).map (· + 1)

/-- Python slice `s[i:j]` (for the in-range uses appearing in the source). -/
def pySlice (s : List Char) (i j : ℕ) : List Char := (s.drop i).take (j - i)

/-- Python `s.split(sep)` for a one-character separator: the result always
has `count sep + 1` parts and `''.split(sep) == ['']`. -/
def pySplit (c : Char) : List Char → List (List Char)
  | [] => [[]]
  | x :: xs =>
    match pySplit c xs with
    | [] => [[]]
    | p :: ps => if x = c then [] :: p :: ps else (x :: p) :: ps

/-- Python `s.strip(chars)`: remove the characters satisfying `t` from both
ends of the string. -/
def stripChars (t : Char → Bool) (s : List Char) : List Char :=
  ((s.dropWhile t).reverse.dropWhile t).reverse

/-- Lower-case a Python string (`s.lower()`). -/
def pyLower (s : List Char) : List Char := s.map Char.toLower

/-- Case-insensitive equality of names, used by the variable table. -/
def lcEq (a b : List Char) : Bool := pyLower a = pyLower b

/-- The user-defined variable table: an association of names to values. -/
abbrev VarTable : Type := List (List Char × List Char)

/-- Modelled from the spec: `Variables.find_variable` (module
`mysql_utilities/common/variables.py`, not part of the sources) — the
"VariableTable" offers a "mapping name→value, case-insensitive lookup";
`_replace_variables` then reads `var[var_name]`, i.e. the stored value. -/
def findVariable (vars : VarTable) (name : List Char) : Option (List Char) :=
  (List.find? (fun p => lcEq p.1 name) vars).map (·.2)

/-- Modelled from the spec: `Variables.add_variable` (not part of the
sources) stores `name → value` in the mapping, replacing any existing
binding of the (case-insensitively equal) name. -/
def addVariable (vars : VarTable) (name value : List Char) : VarTable :=
  (List.filter (fun p => ¬ lcEq p.1 name) vars) ++ [(name, value)]

/-- Modelled from the spec: `Variables.get_matches` (not part of the
sources) — "supports prefix search for completion", matching
"case-insensitive for variables". -/
def getMatches (vars : VarTable) (pre : List Char) : VarTable :=
  List.filter (fun p => (pyLower p.1).take pre.length = pyLower pre) vars

/-! ## `_CommandHistory` (console.py lines 142–199) -/

/-- State of `_CommandHistory`: `position`, `commands` and `max_size`. -/
structure HistState where
  position : ℕ
  commands : List (List Char)
  maxSize : ℕ
  deriving DecidableEq, Repr

/-- `_CommandHistory.add`: append while under `max_size`; once at capacity,
overwrite slot `max_size - 1` when `position == 0`, else slot
`position - 1`. -/
def histAdd (st : HistState) (command : List Char) : HistState :=
  if st.commands.length < st.maxSize then
    { st with commands := st.commands ++ [command], position := 0 }
  else if st.position = 0 then
    { st with commands := st.commands.set (st.maxSize - 1) command }
  else
    { st with commands := st.commands.set (st.position - 1) command }

/-- `_CommandHistory.__next__`: rotate `position` forward with wraparound;
return `''` when the list is empty. -/
def histNext (st : HistState) : List Char × HistState :=
  if st.commands.length = 0 then ([], st)
  else
    let p := if st.position = st.commands.length - 1 then 0 else st.position + 1
    (st.commands.getD p [], { st with position := p })

/-- `_CommandHistory.previous`: rotate `position` backward with wraparound;
return `''` when the list is empty. -/
def histPrevious (st : HistState) : List Char × HistState :=
  if st.commands.length = 0 then ([], st)
  else
    let p := if st.position = 0 then st.commands.length - 1 else st.position - 1
    (st.commands.getD p [], { st with position := p })

/-- The sequence of commands returned by `k` successive `previous()` calls. -/
def prevSeq : ℕ → HistState → List (List Char)
  | 0, _ => []
  | k + 1, st =>
    let r := histPrevious st
    r.1 :: prevSeq k r.2

example : pyFind '$' (str "a $x") 1 = some 2 := by decide
example : pySplit ';' (str "a;b;") = [str "a", str "b", []] := by decide
example : stripChars (· = ' ') (str "  ab ") = str "ab" := by decide
example :
    prevSeq 2 (histAdd (histAdd (histAdd ⟨0, [], 2⟩ (str "a")) (str "b")) (str "c"))
      = [str "c", str "a"] := by decide

/-! ## `_Command` — the console command line (console.py lines 202–443)

State is `command` (the text), `position` (the cursor) and the separately
stored `length` field.  All `sys.stdout` writes are elided; only the state
updates are modelled. -/

/-- State of a `_Command` instance (the `prompt` field, used only for
printing, is omitted). -/
structure CommandState where
  command : List Char
  position : ℕ
  length : ℕ
  deriving DecidableEq, Repr

/-- `_Command.add`: insert `key` at the cursor (when `position < length`)
or append it; `position` and `length` grow by `len(key)`.  (The source's
`key is None` early return is the no-key case, not modelled: callers pass
the bytes read from the terminal.) -/
def cmdAdd (st : CommandState) (key : List Char) : CommandState :=
  if st.position < st.length then
    { command := st.command.take st.position ++ key ++ st.command.drop st.position
      position := st.position + key.length
      length := st.length + key.length }
  else
    { command := st.command ++ key
      position := st.position + key.length
      length := st.length + key.length }

/-- `_Command.backspace_keypress`: delete the character left of the cursor;
no-op when `position <= 0`. -/
def backspaceKeypress (st : CommandState) : CommandState :=
  if st.position ≤ 0 then st
  else if st.position < st.length then
    { command := st.command.take (st.position - 1) ++ st.command.drop st.position
      position := st.position - 1
      length := st.length - 1 }
  else
    { command := st.command.take (st.length - 1)
      position := st.position - 1
      length := st.length - 1 }

/-- `_Command.delete_keypress`: delete the character at the cursor; the
cursor does not move.  Mirrors the source's three-way branch (the
`length == 1` case resets `command` and `length` directly; the general
case rebuilds `command` and recomputes `length` from it). -/
def deleteKeypress (st : CommandState) : CommandState :=
  if st.position < st.length then
    if st.length = 1 then
      { st with command := [], length := 0 }
    else if 0 < st.length then
      let cmd := st.command.take st.position ++ st.command.drop (st.position + 1)
      { st with command := cmd, length := cmd.length }
    else st
  else st

/-- `_Command.left_arrow_keypress`. -/
def leftArrowKeypress (st : CommandState) : CommandState :=
  if 0 < st.position then { st with position := st.position - 1 } else st

/-- `_Command.right_arrow_keypress`. -/
def rightArrowKeypress (st : CommandState) : CommandState :=
  if st.position < st.length then { st with position := st.position + 1 } else st

/-- `_Command.home_keypress`. -/
def homeKeypress (st : CommandState) : CommandState :=
  { st with position := 0 }

/-- `_Command.end_keypress`. -/
def endKeypress (st : CommandState) : CommandState :=
  { st with position := st.length }

/-- `_Command.replace_command`: install `new_cmd` (unless empty) with the
cursor at its end. -/
def replaceCommand (st : CommandState) (newCmd : List Char) : CommandState :=
  if newCmd ≠ [] then
    { command := newCmd, position := newCmd.length, length := newCmd.length }
  else st

/-- `_Command.erase_command`: the source sets `self.command = ''` (after
writing erase sequences) but leaves `self.position` and `self.length`
untouched. -/
def eraseCommand (st : CommandState) : CommandState :=
  { st with command := [] }

/-- `_Command.clear`. -/
def cmdClear (_st : CommandState) : CommandState :=
  { command := [], position := 0, length := 0 }

/-- The `LineBuffer` invariant stated by the spec:
`0 ≤ cursor ≤ length == len(text)` (the lower bound is automatic for `ℕ`). -/
def cmdInv (st : CommandState) : Prop :=
  st.position ≤ st.length ∧ st.length = st.command.length

instance (st : CommandState) : Decidable (cmdInv st) := by
  unfold cmdInv; infer_instance

/-! ## `Console._replace_variables` (console.py lines 871–897)

The Python method is a `while` loop whose index `i` starts at 1 (so a `$`
at position 0 is never considered) and which re-scans from the same index
after a successful substitution.  It is embedded as a step function plus a
fuel-indexed runner; `none` means the fuel ran out, i.e. the loop had not
terminated after that many iterations. -/

/-- Loop state of `_replace_variables`: the scan index `i` and the command
string being rewritten (`new_cmd`). -/
structure RVState where
  i : ℕ
  cmd : List Char
  deriving DecidableEq, Repr

/-- One iteration of the `while` loop of `_replace_variables`.
`Sum.inl r` means the loop exits returning `r`; `Sum.inr st'` is the state
at the next iteration. -/
def rvStep (vars : VarTable) (st : RVState) : List Char ⊕ RVState :=
  match pyFind '$' st.cmd st.i with
  | none => Sum.inl st.cmd
  | some i =>
    if 0 < i then
      let j := (pyFind ' ' st.cmd i).getD st.cmd.length
      if i < j then
        match findVariable vars (pySlice st.cmd (i + 1) j) with
        | some v => Sum.inr ⟨i, st.cmd.take i ++ v ++ st.cmd.drop j⟩
        | none => Sum.inr ⟨j, st.cmd⟩
      else Sum.inr ⟨i, st.cmd⟩
    else Sum.inl st.cmd

/-- Run the loop of `_replace_variables` for at most `fuel` iterations. -/
def rvRun (vars : VarTable) : ℕ → RVState → Option (List Char)
  | 0, _ => none
  | fuel + 1, st =>
    match rvStep vars st with
    | Sum.inl r => some r
    | Sum.inr st' => rvRun vars fuel st'

/-- `Console._replace_variables cmd_string`: the loop starts with `i = 1`
on the given command string. -/
def replaceVariables (vars : VarTable) (fuel : ℕ) (cmdString : List Char) :
    Option (List Char) :=
  rvRun vars fuel ⟨1, cmdString⟩

example :
    replaceVariables [(str "name", str "db1")] 2 (str "use $name now")
      = some (str "use db1 now") := by decide
example :
    replaceVariables [(str "name", str "db1")] 5 (str "$name now")
      = some (str "$name now") := by decide

/-- Specification-side substitution, following the spec's words: "scan the
command text left-to-right for `$name` tokens (terminated by whitespace or
end-of-string) and replace each with the stored value if present; an
unresolved `$name` is left verbatim".  `fuel` is an upper bound on the
number of tokens processed (any value above the string length works). -/
def substCoreF (vars : VarTable) : ℕ → List Char → List Char
  | 0, s => s
  | fuel + 1, s =>
    match pyFind '$' s 0 with
    | none => s
    | some i =>
      let j := (pyFind ' ' s i).getD s.length
      match findVariable vars (pySlice s (i + 1) j) with
      | some v => s.take i ++ v ++ substCoreF vars fuel (s.drop j)
      | none => s.take j ++ substCoreF vars fuel (s.drop j)

/-- Specification-side `_replace_variables`: the first character is copied
verbatim (the scan starts at position 1), then every `$name` token — a `$`
followed by the characters up to the next space or the end of the string —
is replaced by the stored value when defined and left verbatim when not. -/
def replaceVarsSpec (vars : VarTable) (cmdString : List Char) : List Char :=
  match cmdString with
  | [] => []
  | c :: rest => c :: substCoreF vars (rest.length + 1) rest

example :
    replaceVarsSpec [(str "name", str "db1")] (str "use $name now")
      = str "use db1 now" := by decide

/-! ### Properties of `pyFind` -/

theorem pyFind_map_add (c : Char) (a : List Char) :
    ∀ (s : List Char) (k : ℕ),
      pyFind c (a ++ s) (a.length + k) = (pyFind c s k).map (· + a.length) := by
  induction a with
  | nil =>
    intro s k
    simp only [List.nil_append, List.length_nil, Nat.zero_add]
    cases h : pyFind c s k <;> simp [h]
  | cons x xs ih =>
    intro s k
    have : (x :: xs).length + k = (xs.length + k) + 1 := by
      simp [List.length_cons]; omega
    rw [this]
    show (pyFind c (xs ++ s) (xs.length + k)).map (· + 1) = _
    rw [ih s k]
    cases h : pyFind c s k with
    | none => simp
    | some v =>
      simp only [Option.map_some', Option.some.injEq, List.length_cons]
      omega

theorem pyFind_append_free (c : Char) :
    ∀ (a : List Char) (p : ℕ) (s : List Char), p ≤ a.length →
      (∀ ch ∈ a.drop p, ch ≠ c) →
      pyFind c (a ++ s) p = (pyFind c s 0).map (· + a.length) := by
  intro a
  induction a with
  | nil =>
    intro p s hp _
    have hp0 : p = 0 := by simpa using hp
    subst hp0
    simp only [List.nil_append, List.length_nil]
    cases h : pyFind c s 0 <;> simp [h]
  | cons x xs ih =>
    intro p s hp hfree
    match p with
    | 0 =>
      have hx : x ≠ c := hfree x (by simp)
      have hfree' : ∀ ch ∈ xs.drop 0, ch ≠ c := by
        intro ch hch
        refine hfree ch ?_
        simp only [List.drop_zero] at hch ⊢
        exact List.mem_cons_of_mem _ hch
      show (if x = c then some 0 else (pyFind c (xs ++ s) 0).map (· + 1)) = _
      rw [if_neg hx, ih 0 s (Nat.zero_le _) hfree']
      cases h : pyFind c s 0 with
      | none => simp
      | some v =>
        simp only [Option.map_some', Option.some.injEq, List.length_cons]
        omega
    | q + 1 =>
      show (pyFind c (xs ++ s) q).map (· + 1) = _
      rw [ih q s (by simpa using hp) (fun ch hch => hfree ch (by simpa using hch))]
      cases h : pyFind c s 0 with
      | none => simp
      | some v =>
        simp only [Option.map_some', Option.some.injEq, List.length_cons]
        omega

theorem pyFind_some_lt (c : Char) :
    ∀ (s : List Char) (k j : ℕ), pyFind c s k = some j → j < s.length := by
  intro s
  induction s with
  | nil => intro k j h; simp [pyFind] at h
  | cons x xs ih =>
    intro k j h
    match k with
    | 0 =>
      by_cases hx : x = c
      · simp [pyFind, hx] at h; simp [List.length_cons]; omega
      · simp only [pyFind, if_neg hx, Option.map_eq_some'] at h
        obtain ⟨j', hj', rfl⟩ := h
        have := ih 0 j' hj'
        simp [List.length_cons]; omega
    | k' + 1 =>
      simp only [pyFind, Option.map_eq_some'] at h
      obtain ⟨j', hj', rfl⟩ := h
      have := ih k' j' hj'
      simp [List.length_cons]; omega

theorem pyFind_some_ge (c : Char) :
    ∀ (s : List Char) (k j : ℕ), pyFind c s k = some j → k ≤ j := by
  intro s
  induction s with
  | nil => intro k j h; simp [pyFind] at h
  | cons x xs ih =>
    intro k j h
    match k with
    | 0 => exact Nat.zero_le _
    | k' + 1 =>
      simp only [pyFind, Option.map_eq_some'] at h
      obtain ⟨j', hj', rfl⟩ := h
      have := ih k' j' hj'
      omega

theorem pyFind_some_getElem (c : Char) :
    ∀ (s : List Char) (k j : ℕ), pyFind c s k = some j → s[j]? = some c := by
  intro s
  induction s with
  | nil => intro k j h; simp [pyFind] at h
  | cons x xs ih =>
    intro k j h
    match k with
    | 0 =>
      by_cases hx : x = c
      · simp [pyFind, hx] at h; subst h; simp [hx]
      · simp only [pyFind, if_neg hx, Option.map_eq_some'] at h
        obtain ⟨j', hj', rfl⟩ := h
        simpa using ih 0 j' hj'
    | k' + 1 =>
      simp only [pyFind, Option.map_eq_some'] at h
      obtain ⟨j', hj', rfl⟩ := h
      simpa using ih k' j' hj'

theorem pyFind_none_iff (c : Char) :
    ∀ (s : List Char), pyFind c s 0 = none ↔ c ∉ s := by
  intro s
  induction s with
  | nil => simp [pyFind]
  | cons x xs ih =>
    by_cases hx : x = c
    · simp [pyFind, hx]
    · simp only [pyFind, if_neg hx, Option.map_eq_none', List.mem_cons]
      rw [ih]
      constructor
      · rintro h (rfl | hmem)
        · exact hx rfl
        · exact h hmem
      · intro h hmem; exact h (Or.inr hmem)

theorem pyFind_getD_le (s : List Char) (i : ℕ) :
    (pyFind ' ' s i).getD s.length ≤ s.length := by
  cases h : pyFind ' ' s i with
  | none => simp
  | some k => simpa using Nat.le_of_lt (pyFind_some_lt ' ' s i k h)

theorem pyFind_space_gt (s : List Char) (i : ℕ) (h : s[i]? = some '$') :
    i < (pyFind ' ' s i).getD s.length := by
  cases hk : pyFind ' ' s i with
  | none =>
    have : i < s.length := by
      rcases List.getElem?_eq_some.1 h with ⟨hlt, _⟩
      exact hlt
    simpa using this
  | some k =>
    have hik : i ≤ k := pyFind_some_ge ' ' s i k hk
    have hkc : s[k]? = some ' ' := pyFind_some_getElem ' ' s i k hk
    have : i ≠ k := by
      intro heq
      rw [← heq] at hkc
      have := h.symm.trans hkc
      exact absurd (Option.some.inj this) (by decide)
    simpa using lt_of_le_of_ne hik this

theorem getD_pyFind_append (a s : List Char) (i : ℕ) :
    (pyFind ' ' (a ++ s) (a.length + i)).getD (a ++ s).length
      = a.length + (pyFind ' ' s i).getD s.length := by
  rw [pyFind_map_add]
  cases h : pyFind ' ' s i with
  | none => simp [List.length_append]
  | some k => simp [Nat.add_comm]

theorem pySlice_append (a s : List Char) (i j : ℕ) :
    pySlice (a ++ s) (a.length + i) (a.length + j) = pySlice s i j := by
  unfold pySlice
  rw [List.drop_append]
  congr 1
  omega

theorem count_drop_lt (s : List Char) (i j : ℕ) (hij : i < j)
    (h : s[i]? = some '$') :
    (s.drop j).count '$' < s.count '$' := by
  conv_rhs => rw [← List.take_append_drop j s]
  rw [List.count_append]
  have hmem : '$' ∈ s.take j := by
    have htk : (s.take j)[i]? = some '$' := by
      rw [List.getElem?_take, if_pos hij, h]
    rcases List.getElem?_eq_some.1 htk with ⟨hlt, heq⟩
    exact heq ▸ List.getElem_mem hlt
  have : 0 < (s.take j).count '$' := List.count_pos_iff.2 hmem
  omega

theorem findVariable_free (vars : VarTable) (hvals : ∀ pr ∈ vars, '$' ∉ pr.2)
    (name v : List Char) (h : findVariable vars name = some v) : '$' ∉ v := by
  unfold findVariable at h
  rcases Option.map_eq_some'.1 h with ⟨pr, hpr, rfl⟩
  exact hvals pr (List.mem_of_find?_eq_some hpr)

/-- Unfolding equation for a single loop iteration. -/
theorem rvStep_char (vars : VarTable) (p : ℕ) (cmd : List Char) :
    rvStep vars ⟨p, cmd⟩ =
      match pyFind '$' cmd p with
      | none => Sum.inl cmd
      | some i =>
        if 0 < i then
          let j := (pyFind ' ' cmd i).getD cmd.length
          if i < j then
            match findVariable vars (pySlice cmd (i + 1) j) with
            | some v => Sum.inr ⟨i, cmd.take i ++ v ++ cmd.drop j⟩
            | none => Sum.inr ⟨j, cmd⟩
          else Sum.inr ⟨i, cmd⟩
        else Sum.inl cmd := rfl

/-- Unfolding equation for the fuel-indexed runner. -/
theorem rvRun_succ (vars : VarTable) (n : ℕ) (st : RVState) :
    rvRun vars (n + 1) st =
      match rvStep vars st with
      | Sum.inl r => some r
      | Sum.inr st' => rvRun vars n st' := rfl

/-- Main equivalence between the `while` loop of `_replace_variables` and
the specification-side substitution: when no stored value contains a `$`,
the loop scanning `a ++ s` from position `p` (inside `a`, with no `$` at
positions `p..` of `a`) returns `a` followed by the substitution of `s`. -/
theorem rvRun_substCore (vars : VarTable) (hvals : ∀ pr ∈ vars, '$' ∉ pr.2) :
    ∀ (implFuel : ℕ) (s a : List Char) (p specFuel : ℕ),
      1 ≤ p → p ≤ a.length → (∀ ch ∈ a.drop p, ch ≠ '$') →
      s.count '$' < implFuel → s.length < specFuel →
      rvRun vars implFuel ⟨p, a ++ s⟩ = some (a ++ substCoreF vars specFuel s) := by
  intro implFuel
  induction implFuel with
  | zero => intro s a p specFuel _ _ _ hc _; omega
  | succ n ih =>
    intro s a p specFuel hp1 hpa hfree hc hs
    have ha1 : 1 ≤ a.length := le_trans hp1 hpa
    have hfind := pyFind_append_free '$' a p s hpa hfree
    rw [rvRun_succ, rvStep_char, hfind]
    cases hfind0 : pyFind '$' s 0 with
    | none =>
      simp only [Option.map_none']
      obtain ⟨g, rfl⟩ : ∃ g, specFuel = g + 1 := ⟨specFuel - 1, by omega⟩
      rw [substCoreF, hfind0]
    | some i =>
      have hi_lt : i < s.length := pyFind_some_lt '$' s 0 i hfind0
      have hi_get : s[i]? = some '$' := pyFind_some_getElem '$' s 0 i hfind0
      obtain ⟨g, rfl⟩ : ∃ g, specFuel = g + 1 := ⟨specFuel - 1, by omega⟩
      set js := (pyFind ' ' s i).getD s.length with hjs_def
      have hjs_gt : i < js := pyFind_space_gt s i hi_get
      have hjs_le : js ≤ s.length := pyFind_getD_le s i
      simp only [Option.map_some']
      rw [if_pos (by omega : 0 < i + a.length)]
      have hcomm : i + a.length = a.length + i := Nat.add_comm _ _
      have hj_glob : (pyFind ' ' (a ++ s) (i + a.length)).getD (a ++ s).length
          = a.length + js := by
        rw [hcomm, getD_pyFind_append]
      rw [hj_glob, if_pos (by omega : i + a.length < a.length + js)]
      have hslice : pySlice (a ++ s) (i + a.length + 1) (a.length + js)
          = pySlice s (i + 1) js := by
        have h1 : i + a.length + 1 = a.length + (i + 1) := by omega
        rw [h1, pySlice_append]
      rw [hslice]
      have hcount : (s.drop js).count '$' < n := by
        have := count_drop_lt s i js hjs_gt hi_get
        omega
      have hslen : (s.drop js).length < g := by
        have : (s.drop js).length = s.length - js := by simp
        omega
      cases hvar : findVariable vars (pySlice s (i + 1) js) with
      | some v =>
        have hvfree : ∀ ch ∈ v, ch ≠ '$' := by
          intro ch hch hcheq
          exact findVariable_free vars hvals _ v hvar (hcheq ▸ hch)
        have htake : (a ++ s).take (i + a.length) = a ++ s.take i := by
          rw [hcomm, List.take_append]
        have hdrop : (a ++ s).drop (a.length + js) = s.drop js := by
          rw [List.drop_append]
        rw [htake, hdrop]
        have hlen_ai : (a ++ s.take i).length = a.length + i := by
          simp only [List.length_append, List.length_take]
          omega
        have hrec := ih (s.drop js) ((a ++ s.take i) ++ v) (i + a.length) g
          (by omega)
          (by simp only [List.length_append, hlen_ai]; omega)
          (by
            intro ch hch
            have hdl : ((a ++ s.take i) ++ v).drop (i + a.length) = v := by
              rw [hcomm, ← hlen_ai, List.drop_left]
            rw [hdl] at hch
            exact hvfree ch hch)
          hcount hslen
        refine hrec.trans ?_
        simp only [substCoreF, hfind0]
        rw [← hjs_def, hvar]
        simp [List.append_assoc]
      | none =>
        have hsplit : a ++ s = (a ++ s.take js) ++ s.drop js := by
          rw [List.append_assoc, List.take_append_drop]
        have hlen_aj : (a ++ s.take js).length = a.length + js := by
          simp only [List.length_append, List.length_take]
          omega
        have hrec := ih (s.drop js) (a ++ s.take js) (a.length + js) g
          (by omega)
          (le_of_eq hlen_aj.symm)
          (by
            intro ch hch
            rw [← hlen_aj, List.drop_length] at hch
            simp at hch)
          hcount hslen
        rw [hsplit]
        refine hrec.trans ?_
        simp only [substCoreF, hfind0]
        rw [← hjs_def, hvar]
        simp [List.append_assoc]

/-- A variable table whose stored values never contain the sigil `$`. -/
def dollarFreeValues (vars : VarTable) : Prop := ∀ pr ∈ vars, '$' ∉ pr.2

instance (vars : VarTable) : Decidable (dollarFreeValues vars) := by
  unfold dollarFreeValues; infer_instance

/-- Full functional correctness of `_replace_variables` against the spec's
description, for tables whose values are `$`-free: with any fuel above the
number of `$` characters, the loop returns and its result is the
left-to-right token substitution described by the spec (with the scan
starting at position 1). -/
theorem rvRun_eq_spec (vars : VarTable) (cmdString : List Char) (fuel : ℕ)
    (hvals : dollarFreeValues vars) (hfuel : cmdString.count '$' < fuel) :
    replaceVariables vars fuel cmdString = some (replaceVarsSpec vars cmdString) := by
  cases cmdString with
  | nil =>
    obtain ⟨n, rfl⟩ : ∃ n, fuel = n + 1 := ⟨fuel - 1, by omega⟩
    rfl
  | cons c rest =>
    have hcount : rest.count '$' < fuel := by
      rw [List.count_cons] at hfuel
      omega
    have h := rvRun_substCore vars hvals fuel rest [c] 1 (rest.length + 1)
      (le_refl 1) (by simp) (by simp) hcount (Nat.lt_succ_self _)
    exact h

/-- If one loop iteration maps a state to itself, the loop never exits. -/
theorem rvRun_fixpoint_none (vars : VarTable) (st : RVState)
    (h : rvStep vars st = Sum.inr st) : ∀ n, rvRun vars n st = none := by
  intro n
  induction n with
  | zero => rfl
  | succ n ih => rw [rvRun_succ, h]; exact ih

/-! ### Properties of `_CommandHistory` -/

/-- While under capacity, `add` only appends and keeps `position = 0`. -/
theorem histAdd_fill :
    ∀ (xs : List (List Char)) (st : HistState), st.position = 0 →
      st.commands.length + xs.length ≤ st.maxSize →
      List.foldl histAdd st xs
        = ⟨0, st.commands ++ xs, st.maxSize⟩ := by
  intro xs
  induction xs with
  | nil =>
    intro st hp _
    obtain ⟨pos, cmds, m⟩ := st
    simp only at hp
    subst hp
    simp
  | cons x xs ih =>
    intro st hp hle
    have hlt : st.commands.length < st.maxSize := by
      simp only [List.length_cons] at hle
      omega
    have hstep : histAdd st x = ⟨0, st.commands ++ [x], st.maxSize⟩ := by
      unfold histAdd
      rw [if_pos hlt]
    rw [List.foldl_cons, hstep,
      ih ⟨0, st.commands ++ [x], st.maxSize⟩ rfl
        (by
          simp only [List.length_append, List.length_cons, List.length_nil]
            at hle ⊢
          omega)]
    simp

/-- From position `p`, `p` calls of `previous()` walk down through slots
`p-1, …, 0`, returning the first `p` entries in reverse order. -/
theorem prevSeq_desc :
    ∀ (p : ℕ) (l : List (List Char)) (m : ℕ), p ≤ l.length →
      prevSeq p ⟨p, l, m⟩ = (l.take p).reverse := by
  intro p
  induction p with
  | zero => intro l m _; simp [prevSeq]
  | succ p ih =>
    intro l m hp
    have hlen : l.length ≠ 0 := by omega
    have hplt : p < l.length := by omega
    have hprev : histPrevious ⟨p + 1, l, m⟩ = (l.getD p [], ⟨p, l, m⟩) := by
      unfold histPrevious
      simp [hlen]
    rw [prevSeq, hprev]
    simp only
    rw [ih l m (le_of_lt hplt)]
    have hget : l.getD p [] = l[p] := by
      rw [List.getD_eq_getElem?_getD, List.getElem?_eq_getElem hplt]
      rfl
    rw [hget, List.take_succ, List.getElem?_eq_getElem hplt, Option.toList_some,
      List.reverse_append, List.reverse_singleton, List.singleton_append]

/-- From position 0, `len(l)` calls of `previous()` return all entries in
reverse chronological (stored) order. -/
theorem prevSeq_full (l : List (List Char)) (m : ℕ) (hne : l ≠ []) :
    prevSeq l.length ⟨0, l, m⟩ = l.reverse := by
  obtain ⟨k, hk⟩ : ∃ k, l.length = k + 1 :=
    ⟨l.length - 1, by have := List.length_pos.2 hne; omega⟩
  have hklt : k < l.length := by omega
  have hprev : histPrevious ⟨0, l, m⟩ = (l.getD k [], ⟨k, l, m⟩) := by
    unfold histPrevious
    simp [hk]
  rw [hk, prevSeq, hprev]
  simp only
  rw [prevSeq_desc k l m (le_of_lt hklt)]
  have hget : l.getD k [] = l[k] := by
    rw [List.getD_eq_getElem?_getD, List.getElem?_eq_getElem hklt]
    rfl
  have htake : l.take (k + 1) = l := by
    rw [← hk, List.take_length]
  rw [hget]
  conv_rhs => rw [← htake]
  rw [List.take_succ, List.getElem?_eq_getElem hklt, Option.toList_some,
    List.reverse_append, List.reverse_singleton, List.singleton_append]

/-! ## `FailoverConsole` scroll window (failover_console.py lines 574–651)

`_scroll` updates `start_list`/`end_list` and calls `_print_list(True)`,
which re-clamps `end_list` against the rows that actually fit on screen.
The row count `n = len(list_data[1])` and the remaining drawable rows
`remaining = max_rows - rows_printed - 4 - footer_len` (a value determined
by the terminal size and the header rendering) are passed as parameters;
all printing is elided. -/

/-- The window-related fields of `FailoverConsole`. -/
structure ScrollState where
  startList : ℕ
  endList : ℕ
  stopList : ℕ
  scrollSize : ℕ
  scrollOn : Bool
  deriving DecidableEq, Repr

/-- The scroll keys recognized by `_scroll` (`_COMMAND_KEYS`). -/
inductive ScrollKey where
  | arrowUp
  | arrowDn
  deriving DecidableEq, Repr

/-- Effect of `_print_list` (lines 629–648) on the window fields: if the
slice `rows[start_list:end_list]` exceeds the remaining drawable rows the
view is clamped to `start_list + remaining` and scrolling is enabled;
`scroll_size` becomes the number of rows actually shown (when nonzero). -/
def printListUpdate (st : ScrollState) (n remaining : ℕ) : ScrollState :=
  let sliceLen := min st.endList n - min st.startList n
  if remaining < sliceLen then
    let rowsLen := min (st.startList + remaining) n - min st.startList n
    { st with
      endList := st.startList + remaining
      scrollOn := true
      scrollSize := if 0 < rowsLen then rowsLen else st.scrollSize }
  else
    { st with
      scrollOn :=
        if n = st.endList ∧ st.startList = 0 then false else st.scrollOn
      scrollSize := if 0 < sliceLen then sliceLen else st.scrollSize }

/-- `FailoverConsole._scroll` (lines 574–603) followed by the
`_print_list(True)` redraw it triggers.  An arrow at the corresponding
boundary returns without redrawing. -/
def scroll (st : ScrollState) (key : ScrollKey) (n remaining : ℕ) :
    ScrollState :=
  match key with
  | .arrowUp =>
    if 0 < st.startList then
      printListUpdate
        { st with
          startList := st.startList - st.scrollSize
          stopList := st.scrollSize } n remaining
    else st
  | .arrowDn =>
    if st.endList < n then
      printListUpdate
        { st with
          startList := st.endList
          endList :=
            if n < st.endList + st.scrollSize then n
            else st.endList + st.scrollSize } n remaining
    else st

example :
    scroll ⟨0, 10, 0, 10, true⟩ .arrowDn 50 10 = ⟨10, 20, 0, 10, true⟩ := by
  decide

/-! ## `Console` tab completion (console.py lines 446–742, 816–852) -/

/-- `_COMMAND_COMPLETE` -/
def COMMAND_COMPLETE : ℕ := 0
/-- `_OPTION_COMPLETE` -/
def OPTION_COMPLETE : ℕ := 1
/-- `_VARIABLE_COMPLETE` -/
def VARIABLE_COMPLETE : ℕ := 2

/-- The descending scan of `_Command.get_nearest_option`
(`for i in range(self.position - 1, len(parts[0]) - 1, -1)`): walk indices
from `i` down to `lo`, returning the first index holding a space.  The
fuel bound equals the cursor position, which covers the whole range. -/
def scanBack (cmd : List Char) (lo : ℕ) : ℕ → ℕ → Option ℕ
  | 0, _ => none
  | fuel + 1, i =>
    if i < lo then none
    else if cmd.getD i '\x00' = ' ' then some i
    else scanBack cmd lo fuel (i - 1)

/-- `_Command.get_nearest_option` (lines 237–260): with the cursor inside
the line, scan left from the cursor to the end of the first part; return
the enclosed token, or the literal `'ERROR'` when no space is found.  With
the cursor at the end, return the last space-separated part. -/
def getNearestOption (st : CommandState) : List Char :=
  let parts := pySplit ' ' st.command
  if st.position < st.length then
    if st.position = 0 then str "ERROR"
    else
      match scanBack st.command (parts.headD []).length st.position
          (st.position - 1) with
      | some i => stripChars (· = ' ') (pySlice st.command (i + 1) st.position)
      | none => str "ERROR"
  else parts.getLastD []

/-- `Console._set_complete_mode` (lines 594–620): a non-empty single-part
buffer selects command completion; otherwise the nearest option decides —
`segment.find('$') > 0` selects variable completion, anything else option
completion.  Returns the pair (mode, segment). -/
def setCompleteMode (cl : CommandState) : ℕ × List Char :=
  let buf := cl.command
  let parts := pySplit ' ' buf
  if 0 < buf.length ∧ parts.length = 1 then (COMMAND_COMPLETE, [])
  else
    let segment := getNearestOption cl
    match pyFind '$' segment 0 with
    | some k =>
      if 0 < k then (VARIABLE_COMPLETE, segment) else (OPTION_COMPLETE, segment)
    | none => (OPTION_COMPLETE, segment)

/-- One entry of the command catalog (`_BASE_COMMANDS` plus
caller-supplied additions): name, alias and help text. -/
structure CmdEntry where
  name : List Char
  aliasName : List Char
  text : List Char
  deriving DecidableEq, Repr

/-- The `Console` state relevant to key processing: the command line, the
Tab press counter, the history, the variable table, the command catalog
(`base_commands`), the completion mode and the `custom_commands` flag. -/
structure ConsoleState where
  cmdLine : CommandState
  tabCount : ℕ
  history : HistState
  varTable : VarTable
  baseCommands : List CmdEntry
  typeCompleteMode : ℕ
  customCommands : Bool
  deriving DecidableEq, Repr

/-- Output printed during key processing (elided elsewhere): the list of
matching catalog entries shown on a double Tab, or the variable matches
shown by variable completion. -/
inductive PrintEvent where
  | cmdList (mlist : List CmdEntry)
  | varList (mlist : VarTable)
  deriving DecidableEq, Repr

/-- `Console.get_commands` (lines 727–742): all catalog entries whose name
or alias starts with the prefix (`cmd['name'][0:stop] == cmd_prefix`). -/
def getCommands (cmds : List CmdEntry) (cmdPre : List Char) : List CmdEntry :=
  let stop := cmdPre.length
  cmds.filter (fun c => c.name.take stop == cmdPre || c.aliasName.take stop == cmdPre)

/-- `Console.do_base_command_tab` (lines 697–725): on the second Tab print
the matches and reset the counter; on a single Tab with a unique match,
append the unmatched remainder of the name (or alias) plus a space. -/
def doBaseCommandTab (st : ConsoleState) (commandText : List Char)
    (mlist : List CmdEntry) : ConsoleState × List PrintEvent :=
  if st.tabCount = 2 then
    ({ st with tabCount := 0 }, [.cmdList mlist])
  else
    match mlist with
    | [m] =>
      let newCmd :=
        (if m.name.take commandText.length = commandText then m.name
         else m.aliasName) ++ [' ']
      ({ st with
          tabCount := 0
          cmdLine := cmdAdd st.cmdLine (newCmd.drop commandText.length) }, [])
    | _ => (st, [])

/-- `Console.do_command_tab` (lines 683–695).  The custom-command hook
`do_custom_tab` of the base class is a `pass`. -/
def doCommandTab (st : ConsoleState) (commandText : List Char) :
    ConsoleState × List PrintEvent :=
  let mlist := getCommands st.baseCommands commandText
  if 0 < mlist.length then doBaseCommandTab st commandText mlist
  else (st, [])

/-- `Console.do_option_tab` (lines 573–592).  The custom branches
(`do_custom_tab` is a `pass`; `do_custom_option_tab` only prints) do not
change the state. -/
def doOptionTab (st : ConsoleState) (_pre : List Char) :
    ConsoleState × List PrintEvent :=
  let fullCommand := st.cmdLine.command
  let mlist := getCommands st.baseCommands (stripChars (· = ' ') fullCommand)
  if 0 < mlist.length then doBaseCommandTab st fullCommand mlist
  else (st, [])

/-- The descending scan of `do_variable_tab`
(`for i in range(stop - 1, 0, -1)`, so index 0 is never inspected): stop at
a space; at each `$` record the following text and the index. -/
def scanVarLoop (seg : List Char) : ℕ → (List Char × ℕ) → (List Char × ℕ)
  | 0, acc => acc
  | i + 1, acc =>
    let c := seg.getD (i + 1) '\x00'
    if c = ' ' then acc
    else
      scanVarLoop seg i (if c = '$' then (seg.drop (i + 2), i + 1) else acc)

/-- `Console.do_variable_tab` (lines 644–681).  `Variables.get_matches` is
modelled from the spec (see `getMatches`); `show_variables` becomes a
`PrintEvent.varList`. -/
def doVariableTab (st : ConsoleState) (segment : List Char) :
    ConsoleState × List PrintEvent :=
  let stop := segment.length
  let scanned := scanVarLoop segment (stop - 1) ([], 0)
  let varName := scanned.1
  let startVar := scanned.2
  let mlist :=
    if startVar = stop then getMatches st.varTable []
    else getMatches st.varTable varName
  if st.tabCount = 2 then
    ({ st with tabCount := 0 }, [.varList mlist])
  else
    match mlist with
    | [mv] =>
      let newVar := mv.1 ++ [' ']
      ({ st with
          tabCount := 0
          cmdLine := cmdAdd st.cmdLine (newVar.drop varName.length) }, [])
    | _ => (st, [])

/-- The command keys recognized by `get_user_command` / `_COMMAND_KEY`. -/
inductive CmdKey where
  | escape
  | deletePosix
  | deleteWin
  | deleteMac
  | arrowUp
  | arrowDn
  | arrowLt
  | arrowRt
  | backspacePosix
  | backspaceWin
  | home
  | endKey
  | tab
  | enterPosix
  | enterWin
  deriving DecidableEq, Repr

/-- `Console._process_command_keys` (lines 816–852).  Note the source's
final `else` branch (the Tab handling) catches every key not matched
earlier. -/
def processCommandKeys (st : ConsoleState) (cmdKey : CmdKey) :
    ConsoleState × List PrintEvent :=
  match cmdKey with
  | .escape => ({ st with cmdLine := eraseCommand st.cmdLine }, [])
  | .deletePosix | .deleteWin | .deleteMac =>
    ({ st with cmdLine := deleteKeypress st.cmdLine, tabCount := 0 }, [])
  | .arrowUp =>
    let r := histPrevious st.history
    ({ st with cmdLine := replaceCommand st.cmdLine r.1, history := r.2 }, [])
  | .arrowDn =>
    let r := histNext st.history
    ({ st with cmdLine := replaceCommand st.cmdLine r.1, history := r.2 }, [])
  | .arrowLt => ({ st with cmdLine := leftArrowKeypress st.cmdLine }, [])
  | .arrowRt => ({ st with cmdLine := rightArrowKeypress st.cmdLine }, [])
  | .backspacePosix | .backspaceWin =>
    ({ st with cmdLine := backspaceKeypress st.cmdLine }, [])
  | .home => ({ st with cmdLine := homeKeypress st.cmdLine }, [])
  | .endKey => ({ st with cmdLine := endKeypress st.cmdLine }, [])
  | _ =>
    let ms := setCompleteMode st.cmdLine
    let st1 :=
      { st with typeCompleteMode := ms.1, tabCount := st.tabCount + 1 }
    if st1.typeCompleteMode = COMMAND_COMPLETE then
      doCommandTab st1 st1.cmdLine.command
    else if st1.typeCompleteMode = OPTION_COMPLETE then
      doOptionTab st1 ms.2
    else
      doVariableTab st1 ms.2

/-- The `else` branch of `get_user_command` (lines 943–947): an ordinary
key is simply added to the command line. -/
def userCharAdd (st : ConsoleState) (key : List Char) : ConsoleState :=
  { st with cmdLine := cmdAdd st.cmdLine key }

/-- Setting the last slot of a full list replaces its final element. -/
theorem set_last_eq (l : List (List Char)) (x : List Char) (N : ℕ)
    (hlen : l.length = N) (hN : 1 ≤ N) :
    l.set (N - 1) x = l.take (N - 1) ++ [x] := by
  rw [List.set_eq_take_cons_drop x (by omega)]
  have : l.drop (N - 1 + 1) = [] := by
    apply List.drop_eq_nil_of_le
    omega
  rw [this]

/-- Adding `N+1` commands to a fresh ring of capacity `N` fills the ring
with the first `N` commands, then the `(N+1)`-th overwrites the **last**
slot (the source's `add` writes to `commands[max_size - 1]` when
`position == 0`). -/
theorem histAdd_overfill (N : ℕ) (cs : List (List Char)) (hN : 1 ≤ N)
    (hlen : cs.length = N + 1) :
    List.foldl histAdd ⟨0, [], N⟩ cs
      = ⟨0, cs.take (N - 1) ++ [cs.getLast (by rw [← List.length_pos, hlen]; omega)], N⟩ := by
  have hne : cs ≠ [] := by rw [← List.length_pos, hlen]; omega
  have hsplit : cs.dropLast ++ [cs.getLast hne] = cs :=
    List.dropLast_append_getLast hne
  have hdll : cs.dropLast.length = N := by
    simp [List.length_dropLast, hlen]
  conv_lhs => rw [← hsplit]
  rw [List.foldl_append,
    histAdd_fill cs.dropLast ⟨0, [], N⟩ rfl (by simp [hdll])]
  simp only [List.foldl_cons, List.foldl_nil, List.nil_append]
  have hnotlt : ¬ cs.dropLast.length < N := by omega
  unfold histAdd
  rw [if_neg hnotlt, if_pos rfl]
  simp only
  rw [set_last_eq cs.dropLast _ N hdll hN]
  have htk : cs.dropLast.take (N - 1) = cs.take (N - 1) := by
    rw [List.dropLast_eq_take, hlen]
    simp only [Nat.add_sub_cancel]
    rw [List.take_take]
    congr 1
    omega
  rw [htk]

theorem pyFind_zero_iff (c : Char) (s : List Char) :
    pyFind c s 0 = some 0 ↔ s.head? = some c := by
  cases s with
  | nil => simp [pyFind]
  | cons x xs =>
    by_cases hx : x = c
    · simp [pyFind, hx]
    · simp only [pyFind, if_neg hx, List.head?_cons]
      constructor
      · intro h
        rcases Option.map_eq_some'.1 h with ⟨j', _, hj⟩
        omega
      · intro h; exact absurd (Option.some.inj h) hx

/-! ## `Console._do_command` and the piped run mode
(console.py lines 757–814, 899–918, 953–989)

Only the state visible to the run loop is modelled: the variable table and
the boolean returned by `_do_command` (`True` requests exit).  Output is
elided; a `none` result models a Python-level crash or non-termination
(`ValueError` escaping `_add_variable`, or `_replace_variables` looping). -/

/-- Modelled from the spec: `shlex.split` (Python standard library, used by
`_get_util_parameters`) — "shell-like tokenization (quoting and escaping
honored); a tokenization failure is reported as a warning and the command
is dropped".  Tokens are split on spaces; single- or double-quoted
segments join the current token; an unterminated quote is the failure
case. -/
def shlexGo (q : Option Char) (cur : Option (List Char)) :
    List Char → Option (List (List Char))
  | [] =>
    match q, cur with
    | some _, _ => none
    | none, none => some []
    | none, some t => some [t.reverse]
  | ch :: rest =>
    match q with
    | some qc =>
      if ch = qc then shlexGo none (some (cur.getD [])) rest
      else shlexGo (some qc) (some (ch :: cur.getD [])) rest
    | none =>
      if ch = ' ' then
        match cur with
        | none => shlexGo none none rest
        | some t => (shlexGo none none rest).map (t.reverse :: ·)
      else if ch = '"' ∨ ch = Char.ofNat 39 then
        shlexGo (some ch) (some (cur.getD [])) rest
      else shlexGo none (some (ch :: cur.getD [])) rest

/-- Modelled from the spec: `shlex.split cmd` — see `shlexGo`. -/
def shlexSplit (s : List Char) : Option (List (List Char)) :=
  shlexGo none none s

/-- `Console._get_util_parameters` (lines 899–918): `none` models the
`(None, None)` returned after a tokenization error; with more than one
token the head is the command and the rest the parameters; otherwise the
space-stripped original string is the command. -/
def getUtilParameters (cmdString : List Char) :
    Option (List Char × List (List Char)) :=
  match shlexSplit cmdString with
  | none => none
  | some tokens =>
    if 1 < tokens.length then some (tokens.headD [], tokens.tail)
    else some (stripChars (· = ' ') cmdString, [])

/-- `Console._add_variable` (lines 854–869): `find('=') <= 0` prints an
error and leaves the table unchanged; a command with more than one `=`
makes the two-element tuple unpacking raise `ValueError` (modelled as
`none`); otherwise the stripped name/value pair is stored. -/
def addVariableCmd (vars : VarTable) (setCmd : List Char) : Option VarTable :=
  match pyFind '=' setCmd 0 with
  | none => some vars
  | some 0 => some vars
  | some _ =>
    let parts := pySplit '=' setCmd
    if parts.length = 2 then
      let name :=
        stripChars (· = '$') (stripChars Char.isWhitespace (parts.headD []))
      let value := stripChars Char.isWhitespace (parts.getD 1 [])
      some (addVariable vars name value)
    else none

/-- `Console._do_command` (lines 757–814), restricted to its effect on the
variable table and its boolean result (`True` = exit requested).  The
`custom_commands` branches are those of the base console (flag `False`):
`show options` falls through to the parser and no custom executor runs.
`rvFuel` bounds the substitution loop; `none` propagates
non-termination/crash. -/
def doCommand (rvFuel : ℕ) (vars : VarTable) (command0 : List Char) :
    Option (VarTable × Bool) :=
  match rvRun vars rvFuel ⟨1, stripChars (· = ' ') command0⟩ with
  | none => none
  | some command =>
    if (pyLower command).take 4 = str "set " then
      match addVariableCmd vars (command.drop 4) with
      | none => none
      | some vars' => some (vars', false)
    else if pyLower (command.take 11) = str "show errors" then
      some (vars, false)
    else if pyLower (command.take 12) = str "clear errors" then
      some (vars, false)
    else if pyLower (command.take 15) = str "show last error" then
      some (vars, false)
    else if pyLower (command.take 14) = str "show variables" then
      some (vars, false)
    else
      match getUtilParameters command with
      | none => some (vars, false)
      | some (cmd, _params) =>
        if pyLower cmd = str "help" then some (vars, false)
        else if cmd = [] then some (vars, false)
        else if pyLower cmd = str "exit" ∨ pyLower cmd = str "quit" then
          some (vars, true)
        else some (vars, false)

/-- The per-command stripping applied inside the piped loop of
`run_console` (lines 981–989): `cmd.strip('\n').strip(' ')`, then
`.strip('"')` at the `_do_command` call. -/
def stripCmd (c : List Char) : List Char :=
  stripChars (· = '"') (stripChars (· = ' ') (stripChars (· = '\n') c))

/-- The inner loop of the piped branch of `run_console`: execute the
commands of one input line in order; a command that requests exit
`break`s out of this (inner) loop only.  Returns the trace of commands
passed to `_do_command`, the final table, and whether the `break` fired. -/
def execLine (rvFuel : ℕ) (vars : VarTable) :
    List (List Char) → Option (List (List Char) × VarTable × Bool)
  | [] => some ([], vars, false)
  | c :: cs =>
    match doCommand rvFuel vars (stripCmd c) with
    | none => none
    | some (vars', true) => some ([stripCmd c], vars', true)
    | some (vars', false) =>
      match execLine rvFuel vars' cs with
      | none => none
      | some (tr, vars'', b) => some (stripCmd c :: tr, vars'', b)

/-- The outer loop of the piped branch of `run_console` over the
(pre-split) input lines: every line is processed, regardless of the inner
loop's exit flag. -/
def runPipedPieces (rvFuel : ℕ) (vars : VarTable) :
    List (List (List Char)) → Option (List (List Char) × VarTable)
  | [] => some ([], vars)
  | line :: rest =>
    match execLine rvFuel vars line with
    | none => none
    | some (tr, vars', _exited) =>
      match runPipedPieces rvFuel vars' rest with
      | none => none
      | some (tr₂, vars'') => some (tr ++ tr₂, vars'')

/-- The piped branch of `Console.run_console` (lines 981–989): read the
input lines, split each on `;` and execute. -/
def runPiped (rvFuel : ℕ) (vars : VarTable) (lines : List (List Char)) :
    Option (List (List Char) × VarTable) :=
  runPipedPieces rvFuel vars (lines.map (pySplit ';'))

example :
    runPiped 3 [] [str "exit", str "show errors"]
      = some ([str "exit", str "show errors"], []) := by decide

/-! ## `FailoverConsole._reconnect_master` and `display_console`
(failover_console.py lines 698–717, 719–764) -/

/-- The retry loop of `_reconnect_master`: `connectOk k` tells whether the
`k`-th `connect()` attempt succeeds.  Returns (connected, number of
connect attempts, number of sleeps); the loop sleeps after every failed
attempt, including the last. -/
def reconnectGo (connectOk : ℕ → Bool) : ℕ → ℕ → Bool × ℕ × ℕ
  | 0, i => (false, i, i)
  | fuel + 1, i =>
    if connectOk i then (true, i + 1, i)
    else reconnectGo connectOk fuel (i + 1)

/-- `FailoverConsole._reconnect_master` (lines 698–717): an alive master
returns immediately; otherwise at most 3 connect attempts are made. -/
def reconnectMaster (alive : Bool) (connectOk : ℕ → Bool) : Bool × ℕ × ℕ :=
  if alive then (true, 0, 0) else reconnectGo connectOk 3 0

/-- Control-flow outcome of one iteration of the `while` loop of
`display_console` (lines 745–762). -/
inductive StepOutcome where
  | quit
  | timeout
  | looped
  deriving DecidableEq, Repr

/-- One iteration of the `while` loop of `display_console` (lines
745–762): disconnect, wait (the key — `none` on alarm expiry — is an
input), reconnect, then dispatch.  The reconnect result is discarded by
the source; the warning dictionary (`warnings_dic`) is not touched on any
path (rendering is elided). -/
def displayConsoleStep (alive : Bool) (connectOk : ℕ → Bool)
    (key : Option Char) (warnings : List (List Char × List Char)) :
    StepOutcome × List (List Char × List Char) × (Bool × ℕ × ℕ) :=
  let rc := reconnectMaster alive connectOk
  match key with
  | none => (.timeout, warnings, rc)
  | some k =>
    if k = 'Q' ∨ k = 'q' then (.quit, warnings, rc)
    else (.looped, warnings, rc)

/-! ### Helper lemmas for the completion-mode and piped-run claims -/

theorem pySplit_ne_nil (c : Char) : ∀ (l : List Char), pySplit c l ≠ [] := by
  intro l
  cases l with
  | nil => simp [pySplit]
  | cons x xs =>
    unfold pySplit
    cases h : pySplit c xs with
    | nil => simp
    | cons p ps =>
      by_cases hx : x = c <;> simp [hx]

theorem pySplit_length (c : Char) :
    ∀ (l : List Char), (pySplit c l).length = l.count c + 1 := by
  intro l
  induction l with
  | nil => simp [pySplit]
  | cons x xs ih =>
    unfold pySplit
    cases h : pySplit c xs with
    | nil => exact absurd h (pySplit_ne_nil c xs)
    | cons p ps =>
      rw [h] at ih
      simp only [List.length_cons] at ih
      by_cases hx : x = c
      · simp [hx, List.count_cons]; omega
      · simp [hx, List.count_cons]; omega

theorem scanBack_nil (lo : ℕ) :
    ∀ (fuel i : ℕ), scanBack [] lo fuel i = none := by
  intro fuel
  induction fuel with
  | zero => intro i; rfl
  | succ fuel ih =>
    intro i
    unfold scanBack
    by_cases h : i < lo
    · simp [h]
    · simp [h, List.getD]
      exact ih (i - 1)

/-- The positive-index characterization of `segment.find('$') > 0`. -/
theorem pyFind_pos_char (c : Char) (s : List Char) :
    ∀ k, pyFind c s 0 = some k →
      (0 < k ↔ (c ∈ s ∧ s.head? ≠ some c)) := by
  intro k hk
  constructor
  · intro hpos
    constructor
    · have hget := pyFind_some_getElem c s 0 k hk
      rcases List.getElem?_eq_some.1 hget with ⟨hlt, heq⟩
      exact heq ▸ List.getElem_mem hlt
    · intro hhead
      rw [← pyFind_zero_iff] at hhead
      rw [hk] at hhead
      have := Option.some.inj hhead
      omega
  · rintro ⟨_, hhead⟩
    rcases Nat.eq_zero_or_pos k with rfl | hpos
    · exact absurd ((pyFind_zero_iff c s).1 hk) hhead
    · exact hpos

/-- Appending commands after a command that requests exit never executes
them: the inner loop `break`s right after the exit-signalling command. -/
theorem execLine_exit (rvFuel : ℕ) :
    ∀ (cs₁ : List (List Char)) (vars v₁ v₂ : VarTable)
      (tr : List (List Char)) (c : List Char) (cs₂ : List (List Char)),
      execLine rvFuel vars cs₁ = some (tr, v₁, false) →
      doCommand rvFuel v₁ (stripCmd c) = some (v₂, true) →
      execLine rvFuel vars (cs₁ ++ c :: cs₂)
        = some (tr ++ [stripCmd c], v₂, true) := by
  intro cs₁
  induction cs₁ with
  | nil =>
    intro vars v₁ v₂ tr c cs₂ h1 h2
    simp only [execLine, Option.some.injEq, Prod.mk.injEq] at h1
    obtain ⟨htr, hv, -⟩ := h1
    subst htr
    subst hv
    simp only [List.nil_append, execLine, h2]
  | cons d ds ih =>
    intro vars v₁ v₂ tr c cs₂ h1 h2
    rw [List.cons_append]
    unfold execLine at h1 ⊢
    cases hd : doCommand rvFuel vars (stripCmd d) with
    | none => rw [hd] at h1; exact absurd h1 (by simp)
    | some p =>
      obtain ⟨vd, bd⟩ := p
      rw [hd] at h1
      cases bd with
      | true =>
        dsimp only at h1
        simp only [Option.some.injEq, Prod.mk.injEq] at h1
        exact absurd h1.2.2 (by simp)
      | false =>
        dsimp only at h1 ⊢
        cases hrest : execLine rvFuel vd ds with
        | none => rw [hrest] at h1; exact absurd h1 (by simp)
        | some q =>
          obtain ⟨tr', v'', b⟩ := q
          rw [hrest] at h1
          simp only [Option.some.injEq, Prod.mk.injEq] at h1
          obtain ⟨htr, hv, hb⟩ := h1
          subst hv
          subst hb
          rw [ih vd _ v₂ tr' c cs₂ hrest h2]
          simp [← htr]

/-- `doBaseCommandTab` either resets the Tab counter or leaves it alone. -/
theorem doBaseCommandTab_tabCount (st : ConsoleState) (text : List Char)
    (ml : List CmdEntry) :
    (doBaseCommandTab st text ml).1.tabCount = 0
      ∨ (doBaseCommandTab st text ml).1.tabCount = st.tabCount := by
  unfold doBaseCommandTab
  split
  · simp
  · split <;> simp

/-- `doVariableTab` either resets the Tab counter or leaves it alone. -/
theorem doVariableTab_tabCount (st : ConsoleState) (segment : List Char) :
    (doVariableTab st segment).1.tabCount = 0
      ∨ (doVariableTab st segment).1.tabCount = st.tabCount := by
  unfold doVariableTab
  split
  · simp
  · dsimp only
    split <;> simp

/-- `doCommandTab` either resets the Tab counter or leaves it alone. -/
theorem doCommandTab_tabCount (st : ConsoleState) (text : List Char) :
    (doCommandTab st text).1.tabCount = 0
      ∨ (doCommandTab st text).1.tabCount = st.tabCount := by
  unfold doCommandTab
  by_cases h : 0 < (getCommands st.baseCommands text).length
  · simp only [h, if_pos]
    exact doBaseCommandTab_tabCount st text _
  · simp [h]

/-- `doOptionTab` either resets the Tab counter or leaves it alone. -/
theorem doOptionTab_tabCount (st : ConsoleState) (pre : List Char) :
    (doOptionTab st pre).1.tabCount = 0
      ∨ (doOptionTab st pre).1.tabCount = st.tabCount := by
  unfold doOptionTab
  by_cases h : 0 < (getCommands st.baseCommands
      (stripChars (· = ' ') st.cmdLine.command)).length
  · simp only [h, if_pos]
    exact doBaseCommandTab_tabCount st _ _
  · simp [h]

/-! ## Claim theorems -/

/-- C1 (counterexample): with capacity `N = 2` and the three distinct
commands `a, b, c` added to a fresh ring, two `previous()` calls return
`[c, a]` — not the `[c, b]` (last two in reverse chronological order)
the claim requires — and the first command `a` is still in the ring,
while the claim says the first-added command is gone. -/
theorem history_ring_claim_counterexample :
    prevSeq 2 (List.foldl histAdd ⟨0, [], 2⟩ [str "a", str "b", str "c"])
        = [str "c", str "a"]
      ∧ str "a" ∈ (List.foldl histAdd ⟨0, [], 2⟩
          [str "a", str "b", str "c"]).commands
      ∧ prevSeq 2 (List.foldl histAdd ⟨0, [], 2⟩ [str "a", str "b", str "c"])
          ≠ [str "c", str "b"] := by
  decide

/-- C1 (amended): adding `N+1` distinct commands to a fresh ring of
capacity `N ≥ 2` makes the `(N+1)`-th command overwrite the `N`-th (the
last slot): `previous()` called `N` times returns the `(N+1)`-th command
followed by commands `N-1` down to `1` in reverse chronological order; the
`N`-th command is gone from the ring while the first one added is still
present. -/
theorem history_ring_overfill_previous (N : ℕ) (cs : List (List Char))
    (hN : 2 ≤ N) (hlen : cs.length = N + 1) (hnd : cs.Nodup) :
    prevSeq N (List.foldl histAdd ⟨0, [], N⟩ cs)
        = cs.getD N [] :: (cs.take (N - 1)).reverse
      ∧ cs.getD (N - 1) []
          ∉ (List.foldl histAdd ⟨0, [], N⟩ cs).commands
      ∧ cs.getD 0 [] ∈ (List.foldl histAdd ⟨0, [], N⟩ cs).commands := by
  have hN1 : 1 ≤ N := by omega
  have hne : cs ≠ [] := by rw [← List.length_pos, hlen]; omega
  have hNlt : N < cs.length := by omega
  have hN1lt : N - 1 < cs.length := by omega
  have h0lt : 0 < cs.length := by omega
  have hlast : cs.getLast hne = cs[N] := by
    rw [List.getLast_eq_getElem]
    congr 1
    omega
  have hgN : cs.getD N [] = cs[N] := by
    rw [List.getD_eq_getElem?_getD, List.getElem?_eq_getElem hNlt]
    rfl
  have hgN1 : cs.getD (N - 1) [] = cs[N - 1] := by
    rw [List.getD_eq_getElem?_getD, List.getElem?_eq_getElem hN1lt]
    rfl
  have hg0 : cs.getD 0 [] = cs[0] := by
    rw [List.getD_eq_getElem?_getD, List.getElem?_eq_getElem h0lt]
    rfl
  rw [histAdd_overfill N cs hN1 hlen]
  have hLlen : (cs.take (N - 1) ++ [cs.getLast hne]).length = N := by
    simp only [List.length_append, List.length_take, List.length_cons,
      List.length_nil, hlen]
    omega
  refine ⟨?_, ?_, ?_⟩
  · have hfull := prevSeq_full (cs.take (N - 1) ++ [cs.getLast hne]) N
      (by simp)
    rw [hLlen] at hfull
    rw [hfull, List.reverse_append, List.reverse_singleton,
      List.singleton_append, hlast, hgN]
  · rw [hgN1]
    intro hmem
    rcases List.mem_append.1 hmem with hmem | hmem
    · rcases List.mem_take_iff_getElem.1 hmem with ⟨i, hi, heq⟩
      have : i = N - 1 := (hnd.getElem_inj_iff).1 heq
      omega
    · have heq := List.mem_singleton.1 hmem
      rw [hlast] at heq
      have : N - 1 = N := (hnd.getElem_inj_iff).1 heq
      omega
  · rw [hg0]
    refine List.mem_append_left _ ?_
    exact List.mem_take_iff_getElem.2 ⟨0, by omega, rfl⟩

/-- C1 (witness for the amended theorem): the concrete `N = 2` case. -/
theorem history_ring_overfill_previous_witness :
    prevSeq 2 (List.foldl histAdd ⟨0, [], 2⟩ [str "a", str "b", str "c"])
        = str "c" :: [str "a"].reverse
      ∧ str "b" ∉ (List.foldl histAdd ⟨0, [], 2⟩
          [str "a", str "b", str "c"]).commands
      ∧ str "a" ∈ (List.foldl histAdd ⟨0, [], 2⟩
          [str "a", str "b", str "c"]).commands := by
  have h := history_ring_overfill_previous 2 [str "a", str "b", str "c"]
    (by decide) (by decide) (by decide)
  exact h

/-- C2 (confirmed): for the dashboard list window over `n` rows — with
`r` the remaining drawable rows computed by `_print_list` and the redraw
it performs after every accepted scroll — an arrow-down with `end < n`
sets `start` to the old `end` and `end` to `min (end + scroll_size) n`,
and is a no-op when `end = n`; an arrow-up is a no-op when `start = 0`
and otherwise retreats `start` by `scroll_size` (clamped at 0) with `end`
re-clamped to the rows that fit (`min end (start' + r)`).  With 50 rows
and visible capacity 10 from window `(0, 10)`, four downs reach
`(40, 50)` and a further down is a no-op. -/
theorem scroll_window_behavior (st : ScrollState) (n r : ℕ)
    (hse : st.startList ≤ st.endList) (hen : st.endList ≤ n) :
    (st.endList < n → st.scrollSize ≤ r →
      (scroll st .arrowDn n r).startList = st.endList
        ∧ (scroll st .arrowDn n r).endList
            = min (st.endList + st.scrollSize) n)
    ∧ (st.endList = n → scroll st .arrowDn n r = st)
    ∧ (st.startList = 0 → scroll st .arrowUp n r = st)
    ∧ (0 < st.startList →
        (scroll st .arrowUp n r).startList = st.startList - st.scrollSize
          ∧ (scroll st .arrowUp n r).endList
              = min st.endList (st.startList - st.scrollSize + r))
    ∧ ((scroll (scroll (scroll (scroll ⟨0, 10, 0, 10, true⟩
          .arrowDn 50 10) .arrowDn 50 10) .arrowDn 50 10) .arrowDn 50 10)
            = ⟨40, 50, 0, 10, true⟩
        ∧ scroll ⟨40, 50, 0, 10, true⟩ .arrowDn 50 10
            = ⟨40, 50, 0, 10, true⟩) := by
  refine ⟨?_, ?_, ?_, ?_, by decide⟩
  · intro hlt hsr
    unfold scroll
    dsimp only
    rw [if_pos hlt]
    unfold printListUpdate
    dsimp only
    have hend' : (if n < st.endList + st.scrollSize then n
        else st.endList + st.scrollSize) = min (st.endList + st.scrollSize) n := by
      rcases Nat.lt_or_ge n (st.endList + st.scrollSize) with h | h
      · rw [if_pos h]; omega
      · rw [if_neg (by omega)]; omega
    rw [hend']
    rw [if_neg (show ¬ (r < min (min (st.endList + st.scrollSize) n) n
        - min st.endList n) by omega)]
    exact ⟨rfl, rfl⟩
  · intro heq
    unfold scroll
    dsimp only
    rw [if_neg (show ¬ st.endList < n by omega)]
  · intro heq
    unfold scroll
    dsimp only
    rw [if_neg (show ¬ 0 < st.startList by omega)]
  · intro hpos
    unfold scroll
    dsimp only
    rw [if_pos hpos]
    unfold printListUpdate
    dsimp only
    by_cases hcl : r < min st.endList n - min (st.startList - st.scrollSize) n
    · rw [if_pos hcl]
      refine ⟨rfl, ?_⟩
      dsimp only
      omega
    · rw [if_neg hcl]
      refine ⟨rfl, ?_⟩
      dsimp only
      omega

/-- C2 (witness): one arrow-down on the concrete window `(0, 10)` with 50
rows and capacity 10 yields `(10, 20)`. -/
theorem scroll_window_behavior_witness :
    (scroll ⟨0, 10, 0, 10, true⟩ .arrowDn 50 10).startList = 10
      ∧ (scroll ⟨0, 10, 0, 10, true⟩ .arrowDn 50 10).endList = min (10 + 10) 50 := by
  have h := scroll_window_behavior ⟨0, 10, 0, 10, true⟩ 50 10
    (by decide) (by decide)
  exact h.1 (by decide) (by decide)

/-- C3 (counterexample): the scan of `_replace_variables` starts at index
1, so a `$name` token at position 0 is never replaced even when the name
is defined; and the token delimiter is the space character only, so a tab
does not terminate a token.  With `name = "db1"` stored, `"$name now"`
comes back verbatim (the claim requires `"db1 now"`), and
`"use $name\tnow"` also comes back verbatim. -/
theorem replace_variables_claim_counterexample :
    replaceVariables [(str "name", str "db1")] 5 (str "$name now")
        = some (str "$name now")
      ∧ replaceVariables [(str "name", str "db1")] 5 (str "$name now")
          ≠ some (str "db1 now")
      ∧ replaceVariables [(str "name", str "db1")] 5
          ((str "use $name") ++ ['\t'] ++ (str "now"))
          = some ((str "use $name") ++ ['\t'] ++ (str "now")) := by
  decide

/-- C3 (amended): for every command string and stored variable table whose
values contain no `$`, variable substitution replaces each `$name` token —
a `$` at position `≥ 1` followed by the characters up to the next space or
the end of the string — by the stored value when `name` is defined and
leaves the token verbatim when it is not; a `$` at position 0 is left
verbatim.  The loop returns with any fuel above the number of `$`
characters, and `replaceVarsSpec` is that specification. -/
theorem replace_variables_matches_spec (vars : VarTable)
    (cmdString : List Char) (fuel : ℕ) (hvals : dollarFreeValues vars)
    (hfuel : cmdString.count '$' < fuel) :
    replaceVariables vars fuel cmdString
      = some (replaceVarsSpec vars cmdString) :=
  rvRun_eq_spec vars cmdString fuel hvals hfuel

/-- C3 (witness): the spec's own examples, through the amended theorem. -/
theorem replace_variables_matches_spec_witness :
    replaceVariables [(str "name", str "db1")] 2 (str "use $name now")
        = some (str "use db1 now")
      ∧ replaceVariables [(str "name", str "db1")] 2 (str "use $missing x")
          = some (str "use $missing x") := by
  constructor
  · have h := replace_variables_matches_spec [(str "name", str "db1")]
      (str "use $name now") 2 (by decide) (by decide)
    rw [h]
    decide
  · have h := replace_variables_matches_spec [(str "name", str "db1")]
      (str "use $missing x") 2 (by decide) (by decide)
    rw [h]
    decide

/-- C9 (code bug): variable substitution does not terminate on every
input.  With the variable `x` stored with value `"$x"`, the loop on
command `"a $x"` substitutes the token by itself without advancing the
scan index, and never exits: for every fuel the runner is still going. -/
theorem replace_variables_nontermination :
    ∀ fuel, replaceVariables [(str "x", str "$x")] fuel (str "a $x") = none := by
  intro fuel
  cases fuel with
  | zero => rfl
  | succ n =>
    have h1 : rvStep [(str "x", str "$x")] ⟨1, str "a $x"⟩
        = Sum.inr ⟨2, str "a $x"⟩ := by decide
    have h2 : rvStep [(str "x", str "$x")] ⟨2, str "a $x"⟩
        = Sum.inr ⟨2, str "a $x"⟩ := by decide
    show rvRun [(str "x", str "$x")] (n + 1) ⟨1, str "a $x"⟩ = none
    rw [rvRun_succ, h1]
    exact rvRun_fixpoint_none _ _ h2 n

/-- C4 (counterexample): `_set_complete_mode` tests `segment.find('$') > 0`
strictly, so a segment whose first character is the `$` (here `"$v"`, with
the cursor at the end of `"cmd $v"`) selects option completion, not the
variable completion the claim requires; and an empty buffer (which
contains no space) selects option completion, not command completion. -/
theorem set_complete_mode_counterexample :
    (setCompleteMode ⟨str "cmd $v", 6, 6⟩).1 = OPTION_COMPLETE
      ∧ getNearestOption ⟨str "cmd $v", 6, 6⟩ = str "$v"
      ∧ (setCompleteMode ⟨str "cmd $v", 6, 6⟩).1 ≠ VARIABLE_COMPLETE
      ∧ (setCompleteMode ⟨[], 0, 0⟩).1 = OPTION_COMPLETE
      ∧ (setCompleteMode ⟨[], 0, 0⟩).1 ≠ COMMAND_COMPLETE := by
  decide

/-- C4 (amended): tab-completion mode selection — a non-empty buffer with
no separating space selects CommandComplete; an empty buffer selects
OptionComplete; otherwise, with `segment` the token nearest the cursor as
computed by `get_nearest_option`, the mode is VariableComplete exactly
when `segment` contains a `$` at a strictly positive index (i.e. contains
one that is not its first character), and OptionComplete in every other
case. -/
theorem set_complete_mode_selection (cl : CommandState) :
    (cl.command ≠ [] → ' ' ∉ cl.command →
      (setCompleteMode cl).1 = COMMAND_COMPLETE)
    ∧ (cl.command = [] → (setCompleteMode cl).1 = OPTION_COMPLETE)
    ∧ (' ' ∈ cl.command →
        ((setCompleteMode cl).1 = VARIABLE_COMPLETE ↔
          '$' ∈ getNearestOption cl
            ∧ (getNearestOption cl).head? ≠ some '$'))
    ∧ (' ' ∈ cl.command →
        (setCompleteMode cl).1 = VARIABLE_COMPLETE
          ∨ (setCompleteMode cl).1 = OPTION_COMPLETE) := by
  refine ⟨?_, ?_, ?_, ?_⟩
  · intro hne hnosp
    unfold setCompleteMode
    rw [if_pos ⟨List.length_pos.2 hne, by
      rw [pySplit_length]
      rw [List.count_eq_zero.2 hnosp]⟩]
  · intro hnil
    have hseg : getNearestOption cl = str "ERROR" ∨ getNearestOption cl = [] := by
      unfold getNearestOption
      rw [hnil]
      by_cases h1 : cl.position < cl.length
      · rw [if_pos h1]
        by_cases h2 : cl.position = 0
        · rw [if_pos h2]; left; rfl
        · rw [if_neg h2, scanBack_nil]; left; rfl
      · rw [if_neg h1]; right; rfl
    unfold setCompleteMode
    rw [hnil]
    rw [if_neg (by simp)]
    rcases hseg with hseg | hseg <;>
      · dsimp only
        rw [hseg]
        decide
  · intro hsp
    have hcond : ¬ (0 < cl.command.length
        ∧ (pySplit ' ' cl.command).length = 1) := by
      rintro ⟨-, hlen1⟩
      rw [pySplit_length] at hlen1
      have := List.count_pos_iff.2 hsp
      omega
    unfold setCompleteMode
    rw [if_neg hcond]
    dsimp only
    cases hfind : pyFind '$' (getNearestOption cl) 0 with
    | none =>
      dsimp only
      refine ⟨fun h => absurd
        (show OPTION_COMPLETE = VARIABLE_COMPLETE from h) (by decide),
        fun hpr => ?_⟩
      exact absurd ((pyFind_none_iff '$' _).1 hfind) (by simp [hpr.1])
    | some k =>
      dsimp only
      by_cases hk : 0 < k
      · rw [if_pos hk]
        exact ⟨fun _ => ⟨((pyFind_pos_char '$' _ k hfind).1 hk).1,
          ((pyFind_pos_char '$' _ k hfind).1 hk).2⟩, fun _ => rfl⟩
      · rw [if_neg hk]
        refine ⟨fun h => absurd
          (show OPTION_COMPLETE = VARIABLE_COMPLETE from h) (by decide),
          fun hpr => ?_⟩
        have := (pyFind_pos_char '$' _ k hfind).2 hpr
        omega
  · intro hsp
    have hcond : ¬ (0 < cl.command.length
        ∧ (pySplit ' ' cl.command).length = 1) := by
      rintro ⟨-, hlen1⟩
      rw [pySplit_length] at hlen1
      have := List.count_pos_iff.2 hsp
      omega
    unfold setCompleteMode
    rw [if_neg hcond]
    dsimp only
    cases hfind : pyFind '$' (getNearestOption cl) 0 with
    | none => right; rfl
    | some k =>
      dsimp only
      by_cases hk : 0 < k
      · rw [if_pos hk]; left; rfl
      · rw [if_neg hk]; right; rfl

/-- C4 (witness): `"he"` (no space) gives CommandComplete; with the
buffer `"cmd $v"` and the cursor at the end, the mode is not
VariableComplete because the segment's `$` is its first character. -/
theorem set_complete_mode_selection_witness :
    (setCompleteMode ⟨str "he", 2, 2⟩).1 = COMMAND_COMPLETE
      ∧ ¬ (setCompleteMode ⟨str "cmd $v", 6, 6⟩).1 = VARIABLE_COMPLETE := by
  constructor
  · exact (set_complete_mode_selection ⟨str "he", 2, 2⟩).1
      (by decide) (by decide)
  · intro hvar
    have h := ((set_complete_mode_selection ⟨str "cmd $v", 6, 6⟩).2.2.1
      (by decide)).1 hvar
    revert h
    decide

/-- C5 (counterexample): in piped mode, a command that signals exit only
`break`s the inner per-line loop — commands on subsequent input lines are
still executed.  With input lines `"exit"` and `"show errors"`, the first
command signals exit, yet `"show errors"` is also passed to
`_do_command`. -/
theorem piped_exit_counterexample :
    runPiped 3 [] [str "exit", str "show errors"]
        = some ([str "exit", str "show errors"], [])
      ∧ doCommand 3 [] (str "exit") = some ([], true)
      ∧ ([str "exit", str "show errors"] : List (List Char))
          ≠ [str "exit"] := by
  decide

/-- C5 (amended): in piped mode the stop-on-exit rule applies per input
line: once a command of a line signals exit, the remaining commands of
that line are skipped, but all subsequent input lines are still processed
(continuing from the variable state the exit-signalling command left). -/
theorem piped_stop_on_exit_per_line (rvFuel : ℕ) (vars v₁ v₂ : VarTable)
    (cs₁ : List (List Char)) (c : List Char) (cs₂ : List (List Char))
    (rest : List (List (List Char))) (tr : List (List Char))
    (h1 : execLine rvFuel vars cs₁ = some (tr, v₁, false))
    (h2 : doCommand rvFuel v₁ (stripCmd c) = some (v₂, true)) :
    execLine rvFuel vars (cs₁ ++ c :: cs₂)
        = some (tr ++ [stripCmd c], v₂, true)
      ∧ runPipedPieces rvFuel vars ((cs₁ ++ c :: cs₂) :: rest)
          = (runPipedPieces rvFuel v₂ rest).map
              (fun pr => (tr ++ [stripCmd c] ++ pr.1, pr.2)) := by
  have hline := execLine_exit rvFuel cs₁ vars v₁ v₂ tr c cs₂ h1 h2
  refine ⟨hline, ?_⟩
  rw [runPipedPieces, hline]
  dsimp only
  cases hrest : runPipedPieces rvFuel v₂ rest with
  | none => rfl
  | some pr =>
    obtain ⟨tr₂, vf⟩ := pr
    simp [List.append_assoc]

/-- C5 (witness): line `["exit", "set a=1"]` followed by line `["help"]` —
`set a=1` is skipped, `help` still runs. -/
theorem piped_stop_on_exit_per_line_witness :
    execLine 3 [] ([] ++ (str "exit") :: [str "set a=1"])
        = some ([] ++ [stripCmd (str "exit")], [], true)
      ∧ runPipedPieces 3 [] (([] ++ (str "exit") :: [str "set a=1"])
            :: [[str "help"]])
          = (runPipedPieces 3 [] [[str "help"]]).map
              (fun pr => ([] ++ [stripCmd (str "exit")] ++ pr.1, pr.2)) := by
  exact piped_stop_on_exit_per_line 3 [] [] [] [] (str "exit")
    [str "set a=1"] [[str "help"]] [] (by decide) (by decide)

/-- C6 (code-bug evidence): the line-editor invariant
`0 ≤ position ≤ length == len(command)` holds after typing `"ab"` into a
fresh `_Command`, but `erase_command` then sets `command = ''` while
leaving `position` and `length` at 2, violating the invariant the claim
(and the spec) state for every mutation. -/
theorem erase_command_invariant_violation :
    cmdInv (cmdAdd ⟨[], 0, 0⟩ (str "ab"))
      ∧ ¬ cmdInv (eraseCommand (cmdAdd ⟨[], 0, 0⟩ (str "ab")))
      ∧ eraseCommand (cmdAdd ⟨[], 0, 0⟩ (str "ab"))
          = ⟨[], 2, 2⟩ := by
  decide

/-- C7 (counterexample): a Backspace does not reset the Tab counter —
from a state with `tab_count = 1` it is still 1 afterwards, while the
claim requires every non-Tab key to reset it to 0. -/
theorem tab_count_reset_counterexample :
    (processCommandKeys
        ⟨⟨str "h", 1, 1⟩, 1, ⟨0, [], 20⟩, [], [], 0, false⟩
        .backspacePosix).1.tabCount = 1
      ∧ (1 : ℕ) ≠ 0 := by
  decide

/-- C7 (amended): Tab processing increments the counter, though the
completion logic it triggers may reset it to 0 (unique-match completion,
or the listing on the second press); among the non-Tab keys only Delete
resets the counter to 0 — Escape, the arrows, Backspace, Home, End and
ordinary characters added to the buffer leave it unchanged (it is reset
once per command at the top of `get_user_command`). -/
theorem tab_count_key_effects (st : ConsoleState) (key : List Char) :
    (processCommandKeys st .escape).1.tabCount = st.tabCount
  ∧ (processCommandKeys st .arrowUp).1.tabCount = st.tabCount
  ∧ (processCommandKeys st .arrowDn).1.tabCount = st.tabCount
  ∧ (processCommandKeys st .arrowLt).1.tabCount = st.tabCount
  ∧ (processCommandKeys st .arrowRt).1.tabCount = st.tabCount
  ∧ (processCommandKeys st .backspacePosix).1.tabCount = st.tabCount
  ∧ (processCommandKeys st .backspaceWin).1.tabCount = st.tabCount
  ∧ (processCommandKeys st .home).1.tabCount = st.tabCount
  ∧ (processCommandKeys st .endKey).1.tabCount = st.tabCount
  ∧ (processCommandKeys st .deletePosix).1.tabCount = 0
  ∧ (processCommandKeys st .deleteWin).1.tabCount = 0
  ∧ (processCommandKeys st .deleteMac).1.tabCount = 0
  ∧ ((processCommandKeys st .tab).1.tabCount = 0
      ∨ (processCommandKeys st .tab).1.tabCount = st.tabCount + 1)
  ∧ (userCharAdd st key).tabCount = st.tabCount := by
  refine ⟨rfl, rfl, rfl, rfl, rfl, rfl, rfl, rfl, rfl, rfl, rfl, rfl,
    ?_, rfl⟩
  unfold processCommandKeys
  dsimp only
  split
  · rcases doCommandTab_tabCount _ _ with h | h
    · exact Or.inl h
    · exact Or.inr h
  · split
    · rcases doOptionTab_tabCount _ _ with h | h
      · exact Or.inl h
      · exact Or.inr h
    · rcases doVariableTab_tabCount _ _ with h | h
      · exact Or.inl h
      · exact Or.inr h

/-- C8 (counterexample): with the master dead and every connect attempt
failing, `_reconnect_master` returns `False` after its 3 attempts, but the
`display_console` loop body discards that result: the warning dictionary
is still empty afterwards (no warning is displayed), while the claim says
the failure is surfaced by displaying a warning. -/
theorem reconnect_no_warning_counterexample :
    reconnectMaster false (fun _ => false) = (false, 3, 3)
      ∧ (displayConsoleStep false (fun _ => false) (some 'h') []).1
          = .looped
      ∧ (displayConsoleStep false (fun _ => false) (some 'h') []).2.1
          = [] := by
  decide

/-- C8 (amended): reconnection to a dead master makes at most 3 connect
attempts (with a sleep after each failed one), returns success as soon as
an attempt succeeds, and returns `False` when all 3 fail;
`display_console` ignores that result — its warning set is unchanged on
every path and the loop keeps running for any non-quit keypress (an
expired alarm returns `None` to the caller as in the source). -/
theorem reconnect_master_behavior (alive : Bool) (connectOk : ℕ → Bool)
    (key : Option Char) (w : List (List Char × List Char)) :
    (reconnectMaster alive connectOk).2.1 ≤ 3
  ∧ (alive = true → reconnectMaster alive connectOk = (true, 0, 0))
  ∧ (alive = false → (∀ k, k < 3 → connectOk k = false) →
      reconnectMaster alive connectOk = (false, 3, 3))
  ∧ (alive = false → ∀ k, k < 3 → connectOk k = true →
      (∀ m, m < k → connectOk m = false) →
      reconnectMaster alive connectOk = (true, k + 1, k))
  ∧ (displayConsoleStep alive connectOk key w).2.1 = w
  ∧ (key ≠ none → key ≠ some 'Q' → key ≠ some 'q' →
      (displayConsoleStep alive connectOk key w).1 = .looped) := by
  have hgo : reconnectGo connectOk 3 0
      = if connectOk 0 then (true, 1, 0)
        else if connectOk 1 then (true, 2, 1)
        else if connectOk 2 then (true, 3, 2)
        else (false, 3, 3) := by
    unfold reconnectGo
    rfl
  refine ⟨?_, ?_, ?_, ?_, ?_, ?_⟩
  · unfold reconnectMaster
    cases alive with
    | true => simp
    | false =>
      rw [if_neg (by simp), hgo]
      by_cases h0 : connectOk 0 <;> by_cases h1 : connectOk 1 <;>
        by_cases h2 : connectOk 2 <;> simp [h0, h1, h2]
  · intro ha
    subst ha
    rfl
  · intro ha hfail
    subst ha
    unfold reconnectMaster
    rw [if_neg (by simp), hgo, if_neg (by simp [hfail 0 (by omega)]),
      if_neg (by simp [hfail 1 (by omega)]),
      if_neg (by simp [hfail 2 (by omega)])]
  · intro ha k hk hok hprev
    subst ha
    unfold reconnectMaster
    rw [if_neg (by simp), hgo]
    interval_cases k
    · rw [if_pos hok]
    · rw [if_neg (by simp [hprev 0 (by omega)]), if_pos hok]
    · rw [if_neg (by simp [hprev 0 (by omega)]),
        if_neg (by simp [hprev 1 (by omega)]), if_pos hok]
  · unfold displayConsoleStep
    cases key with
    | none => rfl
    | some k =>
      dsimp only
      split <;> rfl
  · intro hne hQ hq
    unfold displayConsoleStep
    cases key with
    | none => exact absurd rfl hne
    | some k =>
      dsimp only
      rw [if_neg (by
        rintro (rfl | rfl)
        · exact hQ rfl
        · exact hq rfl)]

/-- C8 (witness): concrete instantiation — dead master, all attempts
failing, key `'h'` pressed, empty warning set. -/
theorem reconnect_master_behavior_witness :
    reconnectMaster false (fun _ => false) = (false, 3, 3)
      ∧ (displayConsoleStep false (fun _ => false) (some 'h') []).2.1 = []
      ∧ (displayConsoleStep false (fun _ => false) (some 'h') []).1
          = .looped := by
  have h := reconnect_master_behavior false (fun _ => false) (some 'h') []
  exact ⟨h.2.2.1 rfl (fun k _ => rfl), h.2.2.2.2.1,
    h.2.2.2.2.2 (by simp) (by simp) (by simp)⟩

/-- The two-entry catalog of the C10 scenario. -/
def helpHistoryCatalog : List CmdEntry :=
  [⟨str "help", [], str "Show this list."⟩,
   ⟨str "history", [], str "Show history."⟩]

/-- A console whose catalog is `helpHistoryCatalog` and whose buffer holds
`buf` with the cursor at the end. -/
def consoleWith (buf : List Char) : ConsoleState :=
  ⟨⟨buf, buf.length, buf.length⟩, 0, ⟨0, [], 20⟩, [],
    helpHistoryCatalog, 0, false⟩

/-- C10 (confirmed): with catalog entries `help` and `history`, a single
Tab on buffer `"he"` completes it to `"help "` (printing nothing) and
resets the press counter; on buffer `"h"`, the first Tab changes nothing
but the counter, and the second Tab prints both matching entries, leaves
the buffer at `"h"` and resets the counter. -/
theorem tab_completion_help_history :
    (processCommandKeys (consoleWith (str "he")) .tab).1.cmdLine.command
        = str "help "
  ∧ (processCommandKeys (consoleWith (str "he")) .tab).1.tabCount = 0
  ∧ (processCommandKeys (consoleWith (str "he")) .tab).2 = []
  ∧ (processCommandKeys (consoleWith (str "h")) .tab).1.cmdLine.command
      = str "h"
  ∧ (processCommandKeys (consoleWith (str "h")) .tab).1.tabCount = 1
  ∧ (processCommandKeys (consoleWith (str "h")) .tab).2 = []
  ∧ (processCommandKeys
      (processCommandKeys (consoleWith (str "h")) .tab).1
      .tab).1.cmdLine.command = str "h"
  ∧ (processCommandKeys
      (processCommandKeys (consoleWith (str "h")) .tab).1
      .tab).1.tabCount = 0
  ∧ (processCommandKeys
      (processCommandKeys (consoleWith (str "h")) .tab).1
      .tab).2 = [.cmdList helpHistoryCatalog] := by
  decide
